import Mathlib

/-!
Verification of the concurrent, deduplicating file-ingestion pipeline
(`task1_copy_sort.py`).

The embedding is a faithful, sequential shallow model of the Python code:

* file names are Lean `String`s (a wrapper around `List Char`, matching
  Python strings code-point for code-point; lower-casing is modelled for
  the ASCII range, which is what file extensions use);
* paths are lists of components, already resolved (`Path := List String`);
* file contents are byte lists (`List Nat`); a file's size is the length
  of its content;
* the filesystem is an association list of files plus a list of existing
  directories;
* `compute_hash` (SHA-256 of the content stream) is abstracted by an
  arbitrary function `hash : List Nat → String`; every theorem below is
  proved for all such functions unless a concrete instance is needed;
* the `asyncio` scheduling of `main_async` is modelled by the sequential
  dispatch order (the per-destination races the design notes list as an
  accepted limitation are outside the model); the semaphore bound is
  modelled separately by a small-step transition system.
-/

/-! ### Python string helpers (`pathlib.PurePath.suffix` / `.stem`, `str.lower`, `str.lstrip`) -/

/-- Index of the last occurrence of `c` in a character list (Python `str.rfind`). -/
def lastIdxOf (c : Char) : List Char → Option Nat
  | [] => none
  | x :: xs =>
    match lastIdxOf c xs with
    | some j => some (j + 1)
    | none => if x = c then some 0 else none

/-- `pathlib` `suffix`: the part of `name` from its last dot on, provided that dot is
neither the first nor the last character; `""` otherwise. -/
def pySuffix (name : String) : String :=
  match lastIdxOf '.' name.data with
  | none => ""
  | some i => if 0 < i ∧ i + 1 < name.data.length then ⟨name.data.drop i⟩ else ""

/-- `pathlib` `stem`: `name` up to (excluding) the dot that starts `pySuffix`. -/
def pyStem (name : String) : String :=
  match lastIdxOf '.' name.data with
  | none => name
  | some i => if 0 < i ∧ i + 1 < name.data.length then ⟨name.data.take i⟩ else name

/-- ASCII lower-casing of one character (model of `str.lower` on the characters
that occur in file extensions). -/
def lowerChar (c : Char) : Char :=
  if 65 ≤ c.toNat ∧ c.toNat ≤ 90 then Char.ofNat (c.toNat + 32) else c

/-- `str.lower`, character by character. -/
def lowerStr (s : String) : String := ⟨s.data.map lowerChar⟩

/-- `str.lstrip "."`: drop every leading `'.'`. -/
def lstripDot (s : String) : String := ⟨s.data.dropWhile (· = '.')⟩

/-- Python slicing `s[:n]` by code points. -/
def strTake (s : String) (n : Nat) : String := ⟨s.data.take n⟩

/-- Line 65 / line 118: `src_path.suffix.lower().lstrip(".") or "no_extension"`. -/
def extFolder (name : String) : String :=
  let e := lstripDot (lowerStr (pySuffix name))
  if e = "" then "no_extension" else e

/-- Lines 80-81 / 89-90: `f"{src_path.stem}_{src_hash[:8]}{src_path.suffix}"`. -/
def renamedName (name srcHash : String) : String :=
  pyStem name ++ "_" ++ strTake srcHash 8 ++ pySuffix name

/-! ### Paths and the filesystem model -/

/-- A resolved path, root-to-leaf list of components. -/
abbrev PathC := List String

/-- Last path component (`Path.name` in `pathlib`); file paths are nonempty. -/
def lastComp (p : PathC) : String := p.getLastD ""

/-- Structural prefix test on paths. -/
def isPrefixPath : PathC → PathC → Bool
  | [], _ => true
  | _ :: _, [] => false
  | a :: as, b :: bs => a = b && isPrefixPath as bs

/-- `dst_path in f.parents` (line 116): `d` is a proper ancestor of `f`. -/
def inParents (d f : PathC) : Bool := isPrefixPath d f && !(decide (d = f))

/-- Filesystem snapshot: files as an association list from path to content
(bytes), and the set of existing directories. -/
structure FS where
  files : List (PathC × List Nat)
  dirs : List PathC
deriving DecidableEq

/-- Read a file (`Path.exists` + `open(..., "rb")` / `stat`): first entry wins. -/
def lookupFiles (p : PathC) : List (PathC × List Nat) → Option (List Nat)
  | [] => none
  | e :: es => if e.1 = p then some e.2 else lookupFiles p es

/-- `open(path, "wb")` followed by writing `c`: truncate in place or create at the end. -/
def writeFile (p : PathC) (c : List Nat) : List (PathC × List Nat) → List (PathC × List Nat)
  | [] => [(p, c)]
  | e :: es => if e.1 = p then (p, c) :: es else e :: writeFile p c es

/-- Create one directory if absent (`exist_ok=True`). -/
def addDir (ds : List PathC) (d : PathC) : List PathC := if d ∈ ds then ds else ds ++ [d]

/-- The nonempty prefixes of a path, shortest first. -/
def prefixesOf (p : PathC) : List PathC := (List.range p.length).map (fun n => p.take (n + 1))

/-- `makedirs(d, exist_ok=True)` / `mkdir(parents=True, exist_ok=True)`:
create `d` and all its ancestors. -/
def mkdirs (d : PathC) (ds : List PathC) : List PathC := (prefixesOf d).foldl addDir ds

/-- `src_path.is_dir()` in the model. -/
def isDirFS (fs : FS) (p : PathC) : Bool := p ∈ fs.dirs

/-! ### The copy decision (lines 69-95 of `copy_file_task`) -/

/-- The three-way outcome of conflict resolution. -/
inductive CopyDecision where
  | fresh (destPath : PathC)
  | skipDuplicate (existingPath : PathC)
  | renameCopy (destPath : PathC)
deriving DecidableEq

/-- Decision logic of `copy_file_task` (lines 69-95), instrumented with the list
of paths passed to `compute_hash`, in call order: look up the natural target
`dst_root/extFolder/name`; if absent, `fresh`; otherwise compare sizes first,
hash both files only when the sizes are equal, and hash only the source when
the sizes differ. -/
def resolveTr (hash : List Nat → String) (fs : FS) (srcPath : PathC)
    (srcContent : List Nat) (dstRoot : PathC) : CopyDecision × List PathC :=
  let name := lastComp srcPath
  let extF := extFolder name
  let destFile := dstRoot ++ [extF, name]
  match lookupFiles destFile fs.files with
  | none => (.fresh destFile, [])
  | some dstContent =>
    if srcContent.length = dstContent.length then
      let srcHash := hash srcContent
      let dstHash := hash dstContent
      if srcHash = dstHash then
        (.skipDuplicate destFile, [srcPath, destFile])
      else
        (.renameCopy (dstRoot ++ [extF, renamedName name srcHash]), [srcPath, destFile])
    else
      let srcHash := hash srcContent
      (.renameCopy (dstRoot ++ [extF, renamedName name srcHash]), [srcPath])

/-- The copy decision, forgetting the hashing trace. -/
def resolve (hash : List Nat → String) (fs : FS) (srcPath : PathC)
    (srcContent : List Nat) (dstRoot : PathC) : CopyDecision :=
  (resolveTr hash fs srcPath srcContent dstRoot).1

/-- Modelled from the spec's words (§3 / §4.2), for comparison with `resolve`:
the decision is a three-way function of the destination state — no file at the
natural path ⇒ `Fresh`; identical size and identical content hash ⇒
`SkipDuplicate`; otherwise ⇒ `RenameCopy` to
`destRoot/<extFolder>/<stem>_<first-8-of-source-hash><suffix>`, where the
extension folder is the lower-cased suffix without its dot, or
`"no_extension"` when the file has no suffix. -/
def resolveSpec (hash : List Nat → String) (fs : FS) (srcPath : PathC)
    (srcContent : List Nat) (dstRoot : PathC) : CopyDecision :=
  let name := lastComp srcPath
  let extF := if pySuffix name = "" then "no_extension"
              else ⟨(lowerStr (pySuffix name)).data.drop 1⟩
  let natural := dstRoot ++ [extF, name]
  match lookupFiles natural fs.files with
  | none => .fresh natural
  | some dstContent =>
    if dstContent.length = srcContent.length ∧ hash dstContent = hash srcContent then
      .skipDuplicate natural
    else
      .renameCopy (dstRoot ++ [extF, pyStem name ++ "_" ++ strTake (hash srcContent) 8 ++ pySuffix name])

/-! ### The worker (`copy_file_task`, lines 61-105) -/

/-- One log record, as emitted by `copy_file_task` / `main_async`. -/
inductive LogEvent where
  | copied (src dest : PathC)
  | skippedDuplicate (src : PathC)
  | renamedCopy (src dest : PathC)
  | errorLogged (src : PathC)
  | completed
deriving DecidableEq

/-- The source path a log record is about, if any. -/
def LogEvent.srcOf : LogEvent → Option PathC
  | .copied s _ => some s
  | .skippedDuplicate s => some s
  | .renamedCopy s _ => some s
  | .errorLogged s => some s
  | .completed => none

/-- Fault injected into one worker: `noFail` runs cleanly; `failEarly` raises
`PermissionError`/`OSError` at the first filesystem touch (stat / open / hash
read), before any effect; `failMidWrite k` raises `OSError` on the write stream
after `k` bytes, when the decision leads to a write at all. -/
inductive FailMode where
  | noFail
  | failEarly
  | failMidWrite (k : Nat)
deriving DecidableEq

/-- `copy_file_task` (lines 61-105): ensure the extension directory exists,
decide, then stream the bytes (unless skipping); `PermissionError`/`OSError`
anywhere in the body is caught and logged as one error record (lines 104-105).
The injected `FailMode` chooses where (if anywhere) such an error is raised. -/
def copy_file_task (hash : List Nat → String) (fm : FailMode) (fs : FS)
    (srcPath dstRoot : PathC) : FS × LogEvent :=
  if fm = .failEarly then (fs, .errorLogged srcPath)
  else
    match lookupFiles srcPath fs.files with
    | none => (fs, .errorLogged srcPath)
    | some srcContent =>
      let name := lastComp srcPath
      let destDir := dstRoot ++ [extFolder name]
      let fs1 : FS := { fs with dirs := mkdirs destDir fs.dirs }
      match resolveTr hash fs1 srcPath srcContent dstRoot with
      | (.skipDuplicate _, _) => (fs1, .skippedDuplicate srcPath)
      | (.fresh dest, _) =>
        match fm with
        | .failMidWrite k =>
          ({ fs1 with files := writeFile dest (srcContent.take k) fs1.files }, .errorLogged srcPath)
        | _ => ({ fs1 with files := writeFile dest srcContent fs1.files }, .copied srcPath dest)
      | (.renameCopy dest, _) =>
        match fm with
        | .failMidWrite k =>
          ({ fs1 with files := writeFile dest (srcContent.take k) fs1.files }, .errorLogged srcPath)
        | _ => ({ fs1 with files := writeFile dest srcContent fs1.files }, .renamedCopy srcPath dest)

/-! ### The dispatcher (`main_async`, lines 107-124) -/

/-- Line 115: `[p for p in src_path.rglob("*") if p.is_file()]` — every file
strictly below `root`, in filesystem order. -/
def rglobFiles (fs : FS) (root : PathC) : List PathC :=
  (fs.files.map Prod.fst).filter (fun p => isPrefixPath root p && !(decide (p = root)))

/-- Line 116: drop the files already inside the destination root. -/
def includedFiles (fs : FS) (src dst : PathC) : List PathC :=
  (rglobFiles fs src).filter (fun f => !(inParents dst f))

/-- Order-insensitive model of the set comprehension on line 118. -/
def dedupStr : List String → List String
  | [] => []
  | x :: xs => if x ∈ dedupStr xs then dedupStr xs else x :: dedupStr xs

/-- Line 118: the distinct extension folder names of the dispatched files. -/
def extDirsOf (files : List PathC) : List String :=
  dedupStr (files.map (fun f => extFolder (lastComp f)))

/-- Lines 117-120: pre-create every extension directory before dispatch. -/
def preCreate (fs : FS) (dst : PathC) (files : List PathC) : FS :=
  { fs with dirs := (extDirsOf files).foldl (fun ds e => mkdirs (dst ++ [e]) ds) fs.dirs }

/-- Lines 122-123: one worker per file, sharing the state; the model fixes the
dispatch order as the schedule. Returns the final state and one log record per
file, in order. -/
def processFiles (hash : List Nat → String) (fails : PathC → FailMode) (dst : PathC)
    (fs : FS) : List PathC → FS × List LogEvent
  | [] => (fs, [])
  | f :: rest =>
    let r := copy_file_task hash (fails f) fs f dst
    let rr := processFiles hash fails dst r.1 rest
    (rr.1, r.2 :: rr.2)

/-- The startup failure of `main_async` (line 112). -/
inductive PyErr where
  | notADirectoryError
deriving DecidableEq

/-- `main_async` (lines 107-124): validate the source directory, create the
destination root, enumerate, exclude destination-resident files, pre-create
extension directories, dispatch, and log `Processing completed.`; on an invalid
source it raises `NotADirectoryError` with the filesystem untouched. -/
def main_async (hash : List Nat → String) (fails : PathC → FailMode) (fs0 : FS)
    (src dst : PathC) : FS × Except PyErr (List LogEvent) :=
  if isDirFS fs0 src then
    let fs1 : FS := { fs0 with dirs := mkdirs dst fs0.dirs }
    let files := includedFiles fs1 src dst
    let fs2 := preCreate fs1 dst files
    let r := processFiles hash fails dst fs2 files
    (r.1, .ok (r.2 ++ [.completed]))
  else (fs0, .error .notADirectoryError)

/-- The all-clean fault assignment. -/
def noFails : PathC → FailMode := fun _ => .noFail

/-! ### The concurrency limiter (`asyncio.Semaphore(MAX_CONCURRENT)`, lines 29, 63, 121-123)

`async with sem` acquires one slot before the body and releases it on every
exit, normal or exceptional; the try/except inside the body means a worker can
finish either cleanly or by a caught per-file error. The interleaving of the
event loop is modelled as a small-step transition system over task counts. -/

/-- `MAX_CONCURRENT` (line 29). -/
def MAX_CONCURRENT : Nat := 100

/-- Scheduler state: dispatched-but-waiting tasks, tasks holding a limiter
slot (mid-copy), tasks finished cleanly, tasks finished by a caught error, and
the semaphore's remaining capacity. -/
structure SemState where
  waiting : Nat
  running : Nat
  doneOk : Nat
  doneErr : Nat
  sem : Nat
deriving DecidableEq

/-- Initial state: `n` dispatched tasks, none started, a full semaphore. -/
def semInit (n : Nat) : SemState := ⟨n, 0, 0, 0, MAX_CONCURRENT⟩

/-- One event-loop step: a waiting task acquires a free slot, or a running
task finishes — cleanly or through the caught per-file error — and releases
its slot. -/
inductive SemStep : SemState → SemState → Prop
  | acquire (w r ok err s : Nat) :
      SemStep ⟨w + 1, r, ok, err, s + 1⟩ ⟨w, r + 1, ok, err, s⟩
  | finishOk (w r ok err s : Nat) :
      SemStep ⟨w, r + 1, ok, err, s⟩ ⟨w, r, ok + 1, err, s + 1⟩
  | finishErr (w r ok err s : Nat) :
      SemStep ⟨w, r + 1, ok, err, s⟩ ⟨w, r, ok, err + 1, s + 1⟩

/-- States reachable from the start of a run with `n` dispatched tasks. -/
inductive SemReachable (n : Nat) : SemState → Prop
  | init : SemReachable n (semInit n)
  | step {s s' : SemState} : SemReachable n s → SemStep s s' → SemReachable n s'

/-! ### Derived paths and fixtures for concrete runs -/

/-- The natural destination of a source file: `dst_root / ext_folder / name` (line 69). -/
def naturalDest (dstRoot f : PathC) : PathC :=
  dstRoot ++ [extFolder (lastComp f), lastComp f]

/-- The suffixed destination used on a content conflict (lines 80-82 / 89-91). -/
def renameDest (hash : List Nat → String) (dstRoot f : PathC) (c : List Nat) : PathC :=
  dstRoot ++ [extFolder (lastComp f), renamedName (lastComp f) (hash c)]

/-- The log of a run that did not abort. -/
def okLogs : Except PyErr (List LogEvent) → List LogEvent
  | .ok l => l
  | .error _ => []

/-- A source file is *stable* against a destination state when its natural
target holds equal-size, equal-hash content (the skip case), or differs but the
deterministic suffixed target already holds the source's content (the
re-run-of-a-rename case, an overwrite with identical bytes). -/
def stableFor (hash : List Nat → String) (fs : FS) (dst f : PathC) : Bool :=
  match lookupFiles f fs.files with
  | none => false
  | some c =>
    match lookupFiles (naturalDest dst f) fs.files with
    | none => false
    | some d =>
      (decide (c.length = d.length) && decide (hash c = hash d)) ||
      decide (lookupFiles (renameDest hash dst f c) fs.files = some c)

/-- Concrete digit-string digest, a computable stand-in for SHA-256 in the
concrete runs below (the theorems about `resolve` hold for every hash). -/
def mkHash (c : List Nat) : String :=
  ⟨c.foldr (fun n acc => Char.ofNat (48 + n % 10) :: acc) []⟩

/-- Two sources named `x.txt` with different one-byte contents: the second one
conflicts with the first one's copy. -/
def fsC2 : FS :=
  { files := [(["src", "a", "x.txt"], [1]), (["src", "b", "x.txt"], [2])],
    dirs := [["src"], ["src", "a"], ["src", "b"]] }

/-- A tiny tree with one source file and a pre-populated destination file of
the same name and size but different content. -/
def fsDemo : FS :=
  { files := [(["src", "a.txt"], [1, 2]), (["dst", "txt", "a.txt"], [3, 4])],
    dirs := [["src"], ["dst"], ["dst", "txt"]] }

/-! ## String-level lemmas -/

theorem strData_inj {s t : String} (h : s.data = t.data) : s = t := by
  cases s; cases t; exact congrArg String.mk h

theorem data_append (s t : String) : (s ++ t).data = s.data ++ t.data := rfl

theorem toNat_ofNat_valid {n : Nat} (h : n.isValidChar) : (Char.ofNat n).toNat = n := by
  simp [Char.ofNat, h, Char.toNat, Char.ofNatAux, UInt32.toNat, UInt32.ofNatCore]

theorem lowerChar_dot : lowerChar '.' = '.' := by decide

theorem lowerChar_ne_dot {c : Char} (h : c ≠ '.') : lowerChar c ≠ '.' := by
  unfold lowerChar
  split
  · rename_i hr
    intro hEq
    have h2 := congrArg Char.toNat hEq
    rw [toNat_ofNat_valid (Or.inl (by omega))] at h2
    have hdot : Char.toNat '.' = 46 := by decide
    omega
  · exact h

theorem lastIdxOf_eq_none {c : Char} {l : List Char} (h : lastIdxOf c l = none) : c ∉ l := by
  induction l with
  | nil => simp
  | cons x xs ih =>
    unfold lastIdxOf at h
    cases hx : lastIdxOf c xs with
    | some j => rw [hx] at h; simp at h
    | none =>
      rw [hx] at h
      by_cases hxc : x = c
      · simp [hxc] at h
      · simp only [List.mem_cons, not_or]
        exact ⟨fun hc => hxc hc.symm, ih hx⟩

theorem lastIdxOf_drop {c : Char} {l : List Char} {i : Nat} (h : lastIdxOf c l = some i) :
    ∃ rest, l.drop i = c :: rest ∧ c ∉ rest := by
  induction l generalizing i with
  | nil => simp [lastIdxOf] at h
  | cons x xs ih =>
    unfold lastIdxOf at h
    cases hx : lastIdxOf c xs with
    | some j =>
      rw [hx] at h
      simp only [Option.some.injEq] at h
      subst h
      obtain ⟨rest, hd, hn⟩ := ih hx
      exact ⟨rest, by simpa using hd, hn⟩
    | none =>
      rw [hx] at h
      by_cases hxc : x = c
      · rw [if_pos hxc] at h
        simp only [Option.some.injEq] at h
        subst h
        exact ⟨xs, by simp [hxc], lastIdxOf_eq_none hx⟩
      · rw [if_neg hxc] at h
        exact absurd h (by simp)

theorem pySuffix_eq_none {name : String} (h : lastIdxOf '.' name.data = none) :
    pySuffix name = "" := by
  unfold pySuffix; rw [h]

theorem pySuffix_eq_some {name : String} {i : Nat} (h : lastIdxOf '.' name.data = some i) :
    pySuffix name =
      if 0 < i ∧ i + 1 < name.data.length then ⟨name.data.drop i⟩ else "" := by
  unfold pySuffix; rw [h]

theorem pyStem_eq_none {name : String} (h : lastIdxOf '.' name.data = none) :
    pyStem name = name := by
  unfold pyStem; rw [h]

theorem pyStem_eq_some {name : String} {i : Nat} (h : lastIdxOf '.' name.data = some i) :
    pyStem name =
      if 0 < i ∧ i + 1 < name.data.length then ⟨name.data.take i⟩ else name := by
  unfold pyStem; rw [h]

theorem pyStem_append_pySuffix (name : String) : pyStem name ++ pySuffix name = name := by
  cases h : lastIdxOf '.' name.data with
  | none =>
    rw [pyStem_eq_none h, pySuffix_eq_none h]
    exact strData_inj (by simp [data_append])
  | some i =>
    rw [pyStem_eq_some h, pySuffix_eq_some h]
    by_cases hc : 0 < i ∧ i + 1 < name.data.length
    · rw [if_pos hc, if_pos hc]
      exact strData_inj (by simp [data_append])
    · rw [if_neg hc, if_neg hc]
      exact strData_inj (by simp [data_append])

theorem pySuffix_structure (name : String) :
    pySuffix name = "" ∨
    ∃ rest, (pySuffix name).data = '.' :: rest ∧ rest ≠ [] ∧ '.' ∉ rest := by
  cases h : lastIdxOf '.' name.data with
  | none => exact Or.inl (pySuffix_eq_none h)
  | some i =>
    rw [pySuffix_eq_some h]
    by_cases hc : 0 < i ∧ i + 1 < name.data.length
    · right
      obtain ⟨rest, hdrop, hnr⟩ := lastIdxOf_drop h
      rw [if_pos hc]
      refine ⟨rest, by simpa using hdrop, ?_, hnr⟩
      intro hre
      subst hre
      have hl := congrArg List.length hdrop
      rw [List.length_drop] at hl
      simp only [List.length_cons, List.length_nil] at hl
      omega
    · exact Or.inl (by rw [if_neg hc])

theorem pyStem_of_no_suffix {name : String} (h : pySuffix name = "") : pyStem name = name := by
  cases hx : lastIdxOf '.' name.data with
  | none => exact pyStem_eq_none hx
  | some i =>
    rw [pySuffix_eq_some hx] at h
    rw [pyStem_eq_some hx]
    by_cases hc : 0 < i ∧ i + 1 < name.data.length
    · exfalso
      rw [if_pos hc] at h
      obtain ⟨rest, hdrop, _⟩ := lastIdxOf_drop hx
      have h2 : name.data.drop i = ([] : List Char) := congrArg String.data h
      rw [hdrop] at h2
      simp at h2
    · rw [if_neg hc]

theorem extFolder_no_suffix {name : String} (h : pySuffix name = "") :
    extFolder name = "no_extension" := by
  unfold extFolder
  rw [h]
  rfl

theorem extFolder_of_suffix {name : String} {rest : List Char}
    (h : (pySuffix name).data = '.' :: rest) (hne : rest ≠ []) (hnd : '.' ∉ rest) :
    extFolder name = ⟨rest.map lowerChar⟩ := by
  unfold extFolder lstripDot lowerStr
  rw [h]
  cases rest with
  | nil => exact absurd rfl hne
  | cons r rs =>
    have hr : lowerChar r ≠ '.' :=
      lowerChar_ne_dot (fun hh => hnd (hh ▸ List.mem_cons_self r rs))
    simp [hr, String.ext_iff, lowerChar_dot, List.dropWhile_cons]

theorem extFolder_eq_specExt (name : String) :
    extFolder name =
      if pySuffix name = "" then "no_extension"
      else ⟨(lowerStr (pySuffix name)).data.drop 1⟩ := by
  rcases pySuffix_structure name with h | ⟨rest, h, hne, hnd⟩
  · rw [if_pos h, extFolder_no_suffix h]
  · have hsne : pySuffix name ≠ "" := by
      intro hh
      rw [hh] at h
      simp at h
    rw [if_neg hsne, extFolder_of_suffix h hne hnd]
    unfold lowerStr
    rw [h]
    simp

theorem renamedName_data (name h : String) :
    (renamedName name h).data =
      (pyStem name).data ++ '_' :: (h.data.take 8 ++ (pySuffix name).data) := by
  simp [renamedName, data_append, strTake]

theorem renamedName_ne (name h : String) : renamedName name h ≠ name := by
  intro hEq
  have h1 : (renamedName name h).data.length = name.data.length := by rw [hEq]
  have h2 : (pyStem name).data.length + (pySuffix name).data.length = name.data.length := by
    have h3 := congrArg (fun s => s.data.length) (pyStem_append_pySuffix name)
    simpa [data_append] using h3
  rw [renamedName_data] at h1
  simp only [List.length_append, List.length_cons, List.length_take] at h1
  omega

theorem renamedName_no_suffix {name hs : String} (h : pySuffix name = "") :
    renamedName name hs = name ++ "_" ++ strTake hs 8 := by
  unfold renamedName
  rw [h, pyStem_of_no_suffix h]
  exact strData_inj (by simp [data_append])

/-! ## Filesystem lemmas -/

theorem lookupFiles_writeFile_self (p : PathC) (c : List Nat)
    (l : List (PathC × List Nat)) : lookupFiles p (writeFile p c l) = some c := by
  induction l with
  | nil => simp [writeFile, lookupFiles]
  | cons e es ih =>
    by_cases h : e.1 = p
    · simp [writeFile, h, lookupFiles]
    · simp [writeFile, h, lookupFiles, ih]

theorem lookupFiles_writeFile_ne {q p : PathC} (h : q ≠ p) (c : List Nat)
    (l : List (PathC × List Nat)) :
    lookupFiles q (writeFile p c l) = lookupFiles q l := by
  induction l with
  | nil => simp [writeFile, lookupFiles, Ne.symm h]
  | cons e es ih =>
    by_cases he : e.1 = p
    · simp [writeFile, he, lookupFiles, Ne.symm h]
    · by_cases heq : e.1 = q
      · simp [writeFile, he, lookupFiles, heq, h]
      · simp [writeFile, he, lookupFiles, heq, ih]

theorem writeFile_cancel {p : PathC} {c : List Nat} {l : List (PathC × List Nat)}
    (h : lookupFiles p l = some c) : writeFile p c l = l := by
  induction l with
  | nil => simp [lookupFiles] at h
  | cons e es ih =>
    by_cases he : e.1 = p
    · unfold lookupFiles at h
      rw [if_pos he] at h
      simp only [Option.some.injEq] at h
      unfold writeFile
      rw [if_pos he]
      cases e
      simp only at he h
      rw [he, h]
    · unfold lookupFiles at h
      rw [if_neg he] at h
      unfold writeFile
      rw [if_neg he, ih h]

theorem mem_addDir {x d : PathC} (ds : List PathC) :
    x ∈ addDir ds d ↔ x ∈ ds ∨ x = d := by
  unfold addDir
  split
  · rename_i hd
    constructor
    · exact Or.inl
    · rintro (hx | rfl)
      · exact hx
      · exact hd
  · simp

theorem mem_foldl_addDir_of_mem {x : PathC} (l : List PathC) :
    ∀ ds : List PathC, x ∈ ds → x ∈ l.foldl addDir ds := by
  induction l with
  | nil => intro ds h; exact h
  | cons a as ih =>
    intro ds h
    exact ih (addDir ds a) ((mem_addDir ds).mpr (Or.inl h))

theorem mem_foldl_addDir_of_mem_list {x : PathC} (l : List PathC) :
    ∀ ds : List PathC, x ∈ l → x ∈ l.foldl addDir ds := by
  induction l with
  | nil => intro ds h; cases h
  | cons a as ih =>
    intro ds h
    rcases List.mem_cons.mp h with rfl | hx
    · exact mem_foldl_addDir_of_mem as (addDir ds x) ((mem_addDir ds).mpr (Or.inr rfl))
    · exact ih (addDir ds a) hx

theorem mem_mkdirs_of_mem {x d : PathC} (ds : List PathC) (h : x ∈ ds) :
    x ∈ mkdirs d ds :=
  mem_foldl_addDir_of_mem (prefixesOf d) ds h

theorem self_mem_mkdirs {d : PathC} (h : d ≠ []) (ds : List PathC) : d ∈ mkdirs d ds := by
  unfold mkdirs
  apply mem_foldl_addDir_of_mem_list
  unfold prefixesOf
  have hlen : 0 < d.length := List.length_pos.mpr h
  refine List.mem_map.mpr ⟨d.length - 1, List.mem_range.mpr (by omega), ?_⟩
  rw [Nat.sub_add_cancel hlen]
  exact List.take_length d

theorem mem_dedupStr (l : List String) : ∀ x, x ∈ dedupStr l ↔ x ∈ l := by
  induction l with
  | nil => intro x; simp [dedupStr]
  | cons a as ih =>
    intro x
    unfold dedupStr
    split
    · rename_i hmem
      rw [ih x]
      constructor
      · exact fun hx => List.mem_cons.mpr (Or.inr hx)
      · intro hx
        rcases List.mem_cons.mp hx with rfl | hx
        · exact (ih x).mp hmem
        · exact hx
    · simp only [List.mem_cons, ih x]

theorem mem_foldl_mkdirs_of_mem {x : PathC} {dst : PathC} (es : List String) :
    ∀ ds : List PathC, x ∈ ds →
      x ∈ es.foldl (fun ds e => mkdirs (dst ++ [e]) ds) ds := by
  induction es with
  | nil => intro ds h; exact h
  | cons a as ih =>
    intro ds h
    exact ih (mkdirs (dst ++ [a]) ds) (mem_mkdirs_of_mem ds h)

theorem extDir_mem_foldl_mkdirs {dst : PathC} {e : String} (es : List String) :
    ∀ ds : List PathC, e ∈ es →
      dst ++ [e] ∈ es.foldl (fun ds e => mkdirs (dst ++ [e]) ds) ds := by
  induction es with
  | nil => intro ds h; cases h
  | cons a as ih =>
    intro ds h
    rcases List.mem_cons.mp h with rfl | hx
    · exact mem_foldl_mkdirs_of_mem as (mkdirs (dst ++ [e]) ds)
        (self_mem_mkdirs (by simp) ds)
    · exact ih (mkdirs (dst ++ [a]) ds) hx

theorem extDir_mem_preCreate {f : PathC} {files : List PathC} (fs : FS) (dst : PathC)
    (h : f ∈ files) :
    dst ++ [extFolder (lastComp f)] ∈ (preCreate fs dst files).dirs := by
  unfold preCreate extDirsOf
  apply extDir_mem_foldl_mkdirs
  rw [mem_dedupStr]
  exact List.mem_map.mpr ⟨f, h, rfl⟩

theorem preCreate_files (fs : FS) (dst : PathC) (files : List PathC) :
    (preCreate fs dst files).files = fs.files := rfl

theorem mem_preCreate_of_mem {x : PathC} (fs : FS) (dst : PathC) (files : List PathC)
    (h : x ∈ fs.dirs) : x ∈ (preCreate fs dst files).dirs :=
  mem_foldl_mkdirs_of_mem (extDirsOf files) fs.dirs h

/-! ## Resolver branch lemmas -/

theorem resolveTr_fresh {hash : List Nat → String} {fs : FS} {srcPath : PathC}
    {c : List Nat} {dstRoot : PathC}
    (h : lookupFiles (naturalDest dstRoot srcPath) fs.files = none) :
    resolveTr hash fs srcPath c dstRoot = (.fresh (naturalDest dstRoot srcPath), []) := by
  unfold naturalDest at h ⊢
  unfold resolveTr
  dsimp only
  rw [h]

theorem resolveTr_skip {hash : List Nat → String} {fs : FS} {srcPath : PathC}
    {c d : List Nat} {dstRoot : PathC}
    (h : lookupFiles (naturalDest dstRoot srcPath) fs.files = some d)
    (hlen : c.length = d.length) (hhash : hash c = hash d) :
    resolveTr hash fs srcPath c dstRoot =
      (.skipDuplicate (naturalDest dstRoot srcPath),
       [srcPath, naturalDest dstRoot srcPath]) := by
  unfold naturalDest at h ⊢
  unfold resolveTr
  dsimp only
  rw [h]
  simp [hlen, hhash]

theorem resolveTr_rename_hash {hash : List Nat → String} {fs : FS} {srcPath : PathC}
    {c d : List Nat} {dstRoot : PathC}
    (h : lookupFiles (naturalDest dstRoot srcPath) fs.files = some d)
    (hlen : c.length = d.length) (hhash : hash c ≠ hash d) :
    resolveTr hash fs srcPath c dstRoot =
      (.renameCopy (renameDest hash dstRoot srcPath c),
       [srcPath, naturalDest dstRoot srcPath]) := by
  unfold naturalDest at h ⊢
  unfold resolveTr renameDest renamedName
  dsimp only
  rw [h]
  simp [hlen, hhash]

theorem resolveTr_rename_size {hash : List Nat → String} {fs : FS} {srcPath : PathC}
    {c d : List Nat} {dstRoot : PathC}
    (h : lookupFiles (naturalDest dstRoot srcPath) fs.files = some d)
    (hlen : c.length ≠ d.length) :
    resolveTr hash fs srcPath c dstRoot =
      (.renameCopy (renameDest hash dstRoot srcPath c), [srcPath]) := by
  unfold naturalDest at h
  unfold resolveTr renameDest renamedName
  dsimp only
  rw [h]
  simp [hlen]

/-! ## Worker behavior lemmas -/

theorem copy_file_task_failEarly (hash : List Nat → String) (fs : FS) (src dst : PathC) :
    copy_file_task hash .failEarly fs src dst = (fs, .errorLogged src) := by
  unfold copy_file_task
  rw [if_pos rfl]

theorem copy_file_task_srcOf (hash : List Nat → String) (fm : FailMode) (fs : FS)
    (src dst : PathC) : ((copy_file_task hash fm fs src dst).2).srcOf = some src := by
  unfold copy_file_task
  split
  · rfl
  · dsimp only
    split
    · rfl
    · split
      · rfl
      · split <;> rfl
      · split <;> rfl

theorem copy_file_task_failMid_event (hash : List Nat → String) (k : Nat) (fs : FS)
    (src dst : PathC) :
    (copy_file_task hash (.failMidWrite k) fs src dst).2 = .errorLogged src ∨
    (copy_file_task hash (.failMidWrite k) fs src dst).2 = .skippedDuplicate src := by
  unfold copy_file_task
  rw [if_neg (by simp)]
  dsimp only
  split
  · exact Or.inl rfl
  · split
    · exact Or.inr rfl
    · exact Or.inl rfl
    · exact Or.inl rfl

theorem copy_file_task_dirs_mono (hash : List Nat → String) (fm : FailMode) (fs : FS)
    (src dst : PathC) {x : PathC} (h : x ∈ fs.dirs) :
    x ∈ (copy_file_task hash fm fs src dst).1.dirs := by
  unfold copy_file_task
  split
  · exact h
  · dsimp only
    split
    · exact h
    · split
      · exact mem_mkdirs_of_mem fs.dirs h
      · split <;> exact mem_mkdirs_of_mem fs.dirs h
      · split <;> exact mem_mkdirs_of_mem fs.dirs h

theorem copy_file_task_skip {hash : List Nat → String} {fs : FS} {srcPath dstRoot : PathC}
    {c d : List Nat}
    (hsrc : lookupFiles srcPath fs.files = some c)
    (hnat : lookupFiles (naturalDest dstRoot srcPath) fs.files = some d)
    (hlen : c.length = d.length) (hhash : hash c = hash d) :
    copy_file_task hash .noFail fs srcPath dstRoot =
      ({ fs with dirs := mkdirs (dstRoot ++ [extFolder (lastComp srcPath)]) fs.dirs },
       .skippedDuplicate srcPath) := by
  unfold copy_file_task
  rw [if_neg (by simp)]
  dsimp only
  rw [hsrc]
  dsimp only
  rw [@resolveTr_skip hash
      { fs with dirs := mkdirs (dstRoot ++ [extFolder (lastComp srcPath)]) fs.dirs }
      srcPath c d dstRoot hnat hlen hhash]

theorem copy_file_task_fresh {hash : List Nat → String} {fs : FS} {srcPath dstRoot : PathC}
    {c : List Nat}
    (hsrc : lookupFiles srcPath fs.files = some c)
    (hnat : lookupFiles (naturalDest dstRoot srcPath) fs.files = none) :
    copy_file_task hash .noFail fs srcPath dstRoot =
      ({ files := writeFile (naturalDest dstRoot srcPath) c fs.files,
         dirs := mkdirs (dstRoot ++ [extFolder (lastComp srcPath)]) fs.dirs },
       .copied srcPath (naturalDest dstRoot srcPath)) := by
  unfold copy_file_task
  rw [if_neg (by simp)]
  dsimp only
  rw [hsrc]
  dsimp only
  rw [@resolveTr_fresh hash
      { fs with dirs := mkdirs (dstRoot ++ [extFolder (lastComp srcPath)]) fs.dirs }
      srcPath c dstRoot hnat]

theorem copy_file_task_rename {hash : List Nat → String} {fs : FS} {srcPath dstRoot : PathC}
    {c d : List Nat}
    (hsrc : lookupFiles srcPath fs.files = some c)
    (hnat : lookupFiles (naturalDest dstRoot srcPath) fs.files = some d)
    (hdiff : c.length ≠ d.length ∨ hash c ≠ hash d) :
    copy_file_task hash .noFail fs srcPath dstRoot =
      ({ files := writeFile (renameDest hash dstRoot srcPath c) c fs.files,
         dirs := mkdirs (dstRoot ++ [extFolder (lastComp srcPath)]) fs.dirs },
       .renamedCopy srcPath (renameDest hash dstRoot srcPath c)) := by
  unfold copy_file_task
  rw [if_neg (by simp)]
  dsimp only
  rw [hsrc]
  dsimp only
  by_cases hlen : c.length = d.length
  · have hh : hash c ≠ hash d := by
      rcases hdiff with h | h
      · exact absurd hlen h
      · exact h
    rw [@resolveTr_rename_hash hash
      { fs with dirs := mkdirs (dstRoot ++ [extFolder (lastComp srcPath)]) fs.dirs }
      srcPath c d dstRoot hnat hlen hh]
  · rw [@resolveTr_rename_size hash
      { fs with dirs := mkdirs (dstRoot ++ [extFolder (lastComp srcPath)]) fs.dirs }
      srcPath c d dstRoot hnat hlen]

/-! ## Dispatcher lemmas -/

theorem processFiles_nil (hash : List Nat → String) (fails : PathC → FailMode)
    (dst : PathC) (fs : FS) : processFiles hash fails dst fs [] = (fs, []) := rfl

theorem processFiles_cons (hash : List Nat → String) (fails : PathC → FailMode)
    (dst : PathC) (fs : FS) (f : PathC) (rest : List PathC) :
    processFiles hash fails dst fs (f :: rest) =
      ((processFiles hash fails dst (copy_file_task hash (fails f) fs f dst).1 rest).1,
       (copy_file_task hash (fails f) fs f dst).2 ::
         (processFiles hash fails dst (copy_file_task hash (fails f) fs f dst).1 rest).2) := rfl

theorem processFiles_dirs_mono (hash : List Nat → String) (fails : PathC → FailMode)
    (dst : PathC) (files : List PathC) :
    ∀ (fs : FS) {x : PathC}, x ∈ fs.dirs →
      x ∈ (processFiles hash fails dst fs files).1.dirs := by
  induction files with
  | nil => intro fs x h; exact h
  | cons f rest ih =>
    intro fs x h
    rw [processFiles_cons]
    exact ih _ (copy_file_task_dirs_mono hash (fails f) fs f dst h)

theorem processFiles_events (hash : List Nat → String) (fails : PathC → FailMode)
    (dst : PathC) (files : List PathC) :
    ∀ fs : FS,
      List.Forall₂
        (fun f ev => ev.srcOf = some f ∧
          (fails f = .failEarly → ev = .errorLogged f) ∧
          (∀ k, fails f = .failMidWrite k →
            ev = .errorLogged f ∨ ev = .skippedDuplicate f))
        files (processFiles hash fails dst fs files).2 := by
  induction files with
  | nil => intro fs; exact List.Forall₂.nil
  | cons f rest ih =>
    intro fs
    rw [processFiles_cons]
    refine List.Forall₂.cons ⟨copy_file_task_srcOf hash (fails f) fs f dst, ?_, ?_⟩ (ih _)
    · intro hf
      rw [hf, copy_file_task_failEarly]
    · intro k hf
      rw [hf]
      exact copy_file_task_failMid_event hash k fs f dst

theorem includedFiles_dirs_irrel (fs : FS) (ds : List PathC) (src dst : PathC) :
    includedFiles { fs with dirs := ds } src dst = includedFiles fs src dst := rfl

theorem main_async_ok {hash : List Nat → String} {fails : PathC → FailMode} {fs : FS}
    {src dst : PathC} (hdir : isDirFS fs src = true) :
    main_async hash fails fs src dst =
      ((processFiles hash fails dst
          (preCreate { fs with dirs := mkdirs dst fs.dirs } dst (includedFiles fs src dst))
          (includedFiles fs src dst)).1,
       .ok ((processFiles hash fails dst
          (preCreate { fs with dirs := mkdirs dst fs.dirs } dst (includedFiles fs src dst))
          (includedFiles fs src dst)).2 ++ [.completed])) := by
  unfold main_async
  rw [if_pos hdir]
  rfl

/-! ## Stability (re-run) lemmas -/

theorem stableFor_files_irrel {hash : List Nat → String} {fs fs' : FS} {dst g : PathC}
    (h : fs'.files = fs.files) : stableFor hash fs' dst g = stableFor hash fs dst g := by
  unfold stableFor
  rw [h]

theorem copy_file_task_stable {hash : List Nat → String} {fs : FS} {dst f : PathC}
    (h : stableFor hash fs dst f = true) :
    (copy_file_task hash .noFail fs f dst).1.files = fs.files ∧
    ((copy_file_task hash .noFail fs f dst).2 = .skippedDuplicate f ∨
     ∃ d, (copy_file_task hash .noFail fs f dst).2 = .renamedCopy f d) := by
  unfold stableFor at h
  cases hsrc : lookupFiles f fs.files with
  | none => rw [hsrc] at h; simp at h
  | some c =>
    rw [hsrc] at h
    cases hnat : lookupFiles (naturalDest dst f) fs.files with
    | none => rw [hnat] at h; simp at h
    | some d =>
      rw [hnat] at h
      by_cases hskip : c.length = d.length ∧ hash c = hash d
      · rw [copy_file_task_skip hsrc hnat hskip.1 hskip.2]
        exact ⟨rfl, Or.inl rfl⟩
      · have hB : lookupFiles (renameDest hash dst f c) fs.files = some c := by
          simp only [Bool.or_eq_true, Bool.and_eq_true, decide_eq_true_eq] at h
          rcases h with ⟨h1, h2⟩ | h2
          · exact absurd ⟨h1, h2⟩ hskip
          · exact h2
        have hdiff : c.length ≠ d.length ∨ hash c ≠ hash d := by
          by_cases h1 : c.length = d.length
          · exact Or.inr (fun h2 => hskip ⟨h1, h2⟩)
          · exact Or.inl h1
        rw [copy_file_task_rename hsrc hnat hdiff]
        exact ⟨writeFile_cancel hB, Or.inr ⟨_, rfl⟩⟩

theorem processFiles_stable (hash : List Nat → String) (dst : PathC) (files : List PathC) :
    ∀ fs : FS, (∀ f ∈ files, stableFor hash fs dst f = true) →
      (processFiles hash noFails dst fs files).1.files = fs.files ∧
      List.Forall₂
        (fun f ev => ev = .skippedDuplicate f ∨ ∃ d, ev = .renamedCopy f d)
        files (processFiles hash noFails dst fs files).2 := by
  induction files with
  | nil => intro fs _; exact ⟨rfl, List.Forall₂.nil⟩
  | cons f rest ih =>
    intro fs h
    rw [processFiles_cons]
    simp only [noFails]
    have hf := @copy_file_task_stable hash fs dst f (h f (List.mem_cons_self f rest))
    have hrest : ∀ g ∈ rest, stableFor hash (copy_file_task hash .noFail fs f dst).1 dst g = true := by
      intro g hg
      rw [stableFor_files_irrel hf.1]
      exact h g (List.mem_cons.mpr (Or.inr hg))
    obtain ⟨h1, h2⟩ := ih _ hrest
    exact ⟨by rw [h1, hf.1], List.Forall₂.cons hf.2 h2⟩

/-! ## Limiter lemmas -/

theorem semReachable_invariant {n : Nat} {s : SemState} (h : SemReachable n s) :
    s.running + s.sem = MAX_CONCURRENT := by
  induction h with
  | init => rfl
  | step _ hs ih =>
    cases hs with
    | acquire w r ok err s2 => simp at ih ⊢; omega
    | finishOk w r ok err s2 => simp at ih ⊢; omega
    | finishErr w r ok err s2 => simp at ih ⊢; omega

/-! ## Claim theorems -/

/-- C9: In every state reachable during a run with any number `n` of dispatched
files, at most `MAX_CONCURRENT = 100` workers hold a limiter slot (are mid-copy)
at once; and every step in which a worker finishes — whether cleanly
(`finishOk`) or by a caught per-file error (`finishErr`) — releases its slot,
returning it to the semaphore. -/
theorem limiter_bound_and_release {n : Nat} {s : SemState} (h : SemReachable n s) :
    s.running ≤ MAX_CONCURRENT ∧
    ∀ s' : SemState, SemStep s s' → s'.running < s.running → s'.sem = s.sem + 1 := by
  refine ⟨?_, ?_⟩
  · have h2 := semReachable_invariant h
    omega
  · intro s' hs hrun
    cases hs with
    | acquire w r ok err s2 =>
      exfalso
      simp at hrun
    | finishOk w r ok err s2 => rfl
    | finishErr w r ok err s2 => rfl

/-- Witness for C9 at a concrete reachable state: with 3 dispatched files,
after one acquire the bound holds and a finishing error-step releases the
slot. -/
theorem limiter_bound_and_release_witness :
    (⟨2, 1, 0, 0, 99⟩ : SemState).running ≤ MAX_CONCURRENT ∧
    ∀ s' : SemState, SemStep ⟨2, 1, 0, 0, 99⟩ s' →
      s'.running < (⟨2, 1, 0, 0, 99⟩ : SemState).running → s'.sem = 99 + 1 :=
  limiter_bound_and_release
    (SemReachable.step (SemReachable.init) (SemStep.acquire 2 0 0 0 99))

/-- C1: For every source file and destination root the copy decision is the
three-way function of the destination state the spec describes: the code's
decision logic (`resolve`, lines 65-95, which compares sizes before hashes)
coincides with the spec-worded `resolveSpec` — extension folder =
lower-cased suffix without the dot or `"no_extension"`; no existing file ⇒
`Fresh`; identical size and hash ⇒ `SkipDuplicate`; otherwise `RenameCopy`
to `<stem>_<first-8-of-source-hash><suffix>`. -/
theorem resolve_eq_resolveSpec (hash : List Nat → String) (fs : FS) (srcPath : PathC)
    (c : List Nat) (dstRoot : PathC) :
    resolve hash fs srcPath c dstRoot = resolveSpec hash fs srcPath c dstRoot := by
  unfold resolve resolveSpec
  dsimp only
  rw [← extFolder_eq_specExt (lastComp srcPath)]
  unfold resolveTr
  dsimp only
  cases hnat : lookupFiles (dstRoot ++ [extFolder (lastComp srcPath), lastComp srcPath]) fs.files with
  | none => rfl
  | some d =>
    by_cases hlen : c.length = d.length
    · by_cases hh : hash c = hash d
      · simp [hlen, hh]
      · simp [hlen, hh, Ne.symm hh, renamedName]
    · simp [hlen, Ne.symm hlen, renamedName]

/-- C4: Whenever a file exists at the natural destination and its size differs
from the source's, the decision is the rename-and-copy outcome and the hashing
trace is exactly `[srcPath]`: `compute_hash` is invoked once, on the source
only — the existing destination file is never hashed in this branch
(lines 87-95). -/
theorem size_mismatch_hashes_only_source (hash : List Nat → String) (fs : FS)
    (srcPath : PathC) (c d : List Nat) (dstRoot : PathC)
    (hnat : lookupFiles (naturalDest dstRoot srcPath) fs.files = some d)
    (hsize : c.length ≠ d.length) :
    resolveTr hash fs srcPath c dstRoot =
      (.renameCopy (renameDest hash dstRoot srcPath c), [srcPath]) :=
  resolveTr_rename_size hnat hsize

/-- Witness for C4: a two-byte source against a three-byte existing
destination file. -/
theorem size_mismatch_hashes_only_source_witness :
    lookupFiles (naturalDest ["dst"] ["src", "a.txt"])
        (FS.mk [(["dst", "txt", "a.txt"], [5, 6, 7])] []).files = some [5, 6, 7] ∧
    ([1, 2] : List Nat).length ≠ ([5, 6, 7] : List Nat).length ∧
    resolveTr mkHash (FS.mk [(["dst", "txt", "a.txt"], [5, 6, 7])] [])
        ["src", "a.txt"] [1, 2] ["dst"] =
      (.renameCopy (renameDest mkHash ["dst"] ["src", "a.txt"] [1, 2]),
       [["src", "a.txt"]]) :=
  ⟨by decide, by decide,
   size_mismatch_hashes_only_source mkHash (FS.mk [(["dst", "txt", "a.txt"], [5, 6, 7])] [])
     ["src", "a.txt"] [1, 2] [5, 6, 7] ["dst"] (by decide) (by decide)⟩

/-- C10: For a source file with no suffix whose natural destination
`dstRoot/no_extension/<name>` exists with differing content (by size or by
hash), the rename target is `<name>_<first-8-of-source-hash>` — no dot and no
extension, still inside the `no_extension` folder: the `<stem>_<hash8><suffix>`
format degrades to a bare name because both `stem` and `suffix` come from the
dotless name. -/
theorem no_extension_rename_bare (hash : List Nat → String) (fs : FS)
    (srcPath : PathC) (c d : List Nat) (dstRoot : PathC)
    (hsuf : pySuffix (lastComp srcPath) = "")
    (hnat : lookupFiles (naturalDest dstRoot srcPath) fs.files = some d)
    (hdiff : c.length ≠ d.length ∨ hash c ≠ hash d) :
    resolve hash fs srcPath c dstRoot =
      .renameCopy (dstRoot ++ ["no_extension",
        lastComp srcPath ++ "_" ++ strTake (hash c) 8]) := by
  have hext : extFolder (lastComp srcPath) = "no_extension" := extFolder_no_suffix hsuf
  have hren : renamedName (lastComp srcPath) (hash c) =
      lastComp srcPath ++ "_" ++ strTake (hash c) 8 := renamedName_no_suffix hsuf
  unfold resolve
  by_cases hlen : c.length = d.length
  · have hh : hash c ≠ hash d := by
      rcases hdiff with h | h
      · exact absurd hlen h
      · exact h
    rw [resolveTr_rename_hash hnat hlen hh]
    unfold renameDest
    rw [hext, hren]
  · rw [resolveTr_rename_size hnat hlen]
    unfold renameDest
    rw [hext, hren]

/-- Witness for C10: source `src/notes` (no extension) against an existing
`dst/no_extension/notes` of equal size but different content. -/
theorem no_extension_rename_bare_witness :
    pySuffix (lastComp ["src", "notes"]) = "" ∧
    lookupFiles (naturalDest ["dst"] ["src", "notes"])
        (FS.mk [(["dst", "no_extension", "notes"], [2])] []).files = some [2] ∧
    (([1] : List Nat).length ≠ ([2] : List Nat).length ∨ mkHash [1] ≠ mkHash [2]) ∧
    resolve mkHash (FS.mk [(["dst", "no_extension", "notes"], [2])] [])
        ["src", "notes"] [1] ["dst"] =
      .renameCopy (["dst"] ++ ["no_extension",
        lastComp ["src", "notes"] ++ "_" ++ strTake (mkHash [1]) 8]) :=
  ⟨by decide, by decide, Or.inr (by decide),
   no_extension_rename_bare mkHash (FS.mk [(["dst", "no_extension", "notes"], [2])] [])
     ["src", "notes"] [1] [2] ["dst"] (by decide) (by decide) (Or.inr (by decide))⟩

/-- C5: When the source path is not an existing directory, `main_async` raises
`NotADirectoryError` before any work: the returned filesystem is exactly the
input one — the destination root is not created, nothing is enumerated, and no
copy happens (lines 109-113 check the source before `dst_path.mkdir`). -/
theorem invalid_src_aborts_untouched (hash : List Nat → String)
    (fails : PathC → FailMode) (fs : FS) (src dst : PathC)
    (h : isDirFS fs src = false) :
    main_async hash fails fs src dst = (fs, .error .notADirectoryError) := by
  unfold main_async
  simp [h]

/-- Witness for C5: an empty filesystem has no `src` directory. -/
theorem invalid_src_aborts_untouched_witness :
    isDirFS (FS.mk [] []) ["nope"] = false ∧
    main_async mkHash noFails (FS.mk [] []) ["nope"] ["dst"] =
      (FS.mk [] [], .error .notADirectoryError) :=
  ⟨by decide,
   invalid_src_aborts_untouched mkHash noFails (FS.mk [] []) ["nope"] ["dst"] (by decide)⟩

theorem forall2_exists_left {α β : Type _} {R : α → β → Prop} :
    ∀ {l1 : List α} {l2 : List β}, List.Forall₂ R l1 l2 →
      ∀ b ∈ l2, ∃ a ∈ l1, R a b := by
  intro l1 l2 h
  induction h with
  | nil => intro b hb; cases hb
  | cons hR _ ih =>
    intro b hb
    rcases List.mem_cons.mp hb with rfl | hb2
    · exact ⟨_, List.mem_cons_self _ _, hR⟩
    · obtain ⟨a, ha, hr⟩ := ih b hb2
      exact ⟨a, List.mem_cons.mpr (Or.inr ha), hr⟩

/-- C6: No enumerated source file lying under the destination root is ever
dispatched (line 116's filter), and consequently no log record of the run —
copy, skip, rename or error — is about a file under the destination root;
this covers the case of a destination directory nested inside the source
tree. -/
theorem dest_resident_files_never_dispatched (hash : List Nat → String)
    (fails : PathC → FailMode) (fs : FS) (src dst : PathC) :
    (∀ f ∈ includedFiles fs src dst, inParents dst f = false) ∧
    (∀ ev ∈ okLogs (main_async hash fails fs src dst).2, ∀ p : PathC,
       ev.srcOf = some p → inParents dst p = false) := by
  have hpart1 : ∀ f ∈ includedFiles fs src dst, inParents dst f = false := by
    intro f hf
    have h2 := List.of_mem_filter hf
    simpa using h2
  refine ⟨hpart1, ?_⟩
  by_cases hdir : isDirFS fs src = true
  · rw [main_async_ok hdir]
    intro ev hev p hp
    have hev2 : ev ∈ (processFiles hash fails dst
        (preCreate { fs with dirs := mkdirs dst fs.dirs } dst (includedFiles fs src dst))
        (includedFiles fs src dst)).2 ++ [LogEvent.completed] := hev
    rcases List.mem_append.mp hev2 with h1 | h2
    · obtain ⟨f, hf, hR⟩ := forall2_exists_left
        (processFiles_events hash fails dst (includedFiles fs src dst) _) ev h1
      have hpf : p = f := by
        rw [hR.1] at hp
        exact (Option.some.injEq _ _).mp hp.symm
      subst hpf
      exact hpart1 p hf
    · have hc : ev = LogEvent.completed := by simpa using h2
      subst hc
      simp [LogEvent.srcOf] at hp
  · have hfalse : ¬ (isDirFS fs src = true) := hdir
    unfold main_async
    rw [if_neg hfalse]
    intro ev hev
    cases hev

/-- Witness for C6: destination nested inside the source; the file already
inside `src/dist` is excluded, and the dispatched file is not under the
destination. -/
theorem dest_resident_files_never_dispatched_witness :
    ["src", "a.txt"] ∈
      includedFiles (FS.mk [(["src", "a.txt"], [1]), (["src", "dist", "x"], [2])]
        [["src"], ["src", "dist"]]) ["src"] ["src", "dist"] ∧
    inParents ["src", "dist"] ["src", "a.txt"] = false :=
  ⟨by decide,
   (dest_resident_files_never_dispatched mkHash noFails
      (FS.mk [(["src", "a.txt"], [1]), (["src", "dist", "x"], [2])]
        [["src"], ["src", "dist"]]) ["src"] ["src", "dist"]).1
     ["src", "a.txt"] (by decide)⟩

/-- C7: The dispatcher pre-creates the distinct extension folders of all
included files under the destination root before dispatching any worker
(lines 117-120), so each included file's destination subdirectory exists in
the pre-dispatch state; and since workers only add directories, it still
exists in the state in which that file's worker runs (and writes). -/
theorem ext_dirs_exist_before_writes (hash : List Nat → String)
    (fails : PathC → FailMode) (fs : FS) (src dst : PathC) :
    (∀ f ∈ includedFiles fs src dst,
       dst ++ [extFolder (lastComp f)] ∈
         (preCreate { fs with dirs := mkdirs dst fs.dirs } dst
           (includedFiles fs src dst)).dirs) ∧
    (∀ i (h : i < (includedFiles fs src dst).length),
       dst ++ [extFolder (lastComp ((includedFiles fs src dst).get ⟨i, h⟩))] ∈
         (processFiles hash fails dst
           (preCreate { fs with dirs := mkdirs dst fs.dirs } dst
             (includedFiles fs src dst))
           ((includedFiles fs src dst).take i)).1.dirs) := by
  constructor
  · intro f hf
    exact extDir_mem_preCreate _ dst hf
  · intro i h
    have hmem : (includedFiles fs src dst).get ⟨i, h⟩ ∈ includedFiles fs src dst :=
      List.get_mem _ i h
    exact processFiles_dirs_mono hash fails dst ((includedFiles fs src dst).take i) _
      (extDir_mem_preCreate _ dst hmem)

/-- Witness for C7: in the two-file tree `fsC2` the `txt` folder exists in the
state reached just before the second worker runs. -/
theorem ext_dirs_exist_before_writes_witness :
    ["dst"] ++ [extFolder (lastComp ((includedFiles fsC2 ["src"] ["dst"]).get
        ⟨1, by decide⟩))] ∈
      (processFiles mkHash noFails ["dst"]
        (preCreate { fsC2 with dirs := mkdirs ["dst"] fsC2.dirs } ["dst"]
          (includedFiles fsC2 ["src"] ["dst"]))
        ((includedFiles fsC2 ["src"] ["dst"]).take 1)).1.dirs :=
  (ext_dirs_exist_before_writes mkHash noFails fsC2 ["src"] ["dst"]).2 1 (by decide)

/-- C8: With an existing natural-destination file of equal size: if the hashes
also match, the worker writes nothing — the file list is unchanged; if the
hashes differ, the only write is to the suffixed rename target, which differs
from the natural path, so the original destination file still holds its old
content while the source's content appears only under the suffixed name. -/
theorem skip_and_rename_preserve_existing (hash : List Nat → String) (fs : FS)
    (srcPath dstRoot : PathC) (c d : List Nat)
    (hsrc : lookupFiles srcPath fs.files = some c)
    (hnat : lookupFiles (naturalDest dstRoot srcPath) fs.files = some d) :
    (c.length = d.length → hash c = hash d →
       (copy_file_task hash .noFail fs srcPath dstRoot).1.files = fs.files) ∧
    (c.length = d.length → hash c ≠ hash d →
       renameDest hash dstRoot srcPath c ≠ naturalDest dstRoot srcPath ∧
       (copy_file_task hash .noFail fs srcPath dstRoot).1.files =
         writeFile (renameDest hash dstRoot srcPath c) c fs.files ∧
       lookupFiles (naturalDest dstRoot srcPath)
         (copy_file_task hash .noFail fs srcPath dstRoot).1.files = some d ∧
       lookupFiles (renameDest hash dstRoot srcPath c)
         (copy_file_task hash .noFail fs srcPath dstRoot).1.files = some c) := by
  constructor
  · intro hlen hh
    rw [copy_file_task_skip hsrc hnat hlen hh]
  · intro hlen hh
    have hne : renameDest hash dstRoot srcPath c ≠ naturalDest dstRoot srcPath := by
      unfold renameDest naturalDest
      intro hEq
      have h2 := List.append_cancel_left hEq
      simp only [List.cons.injEq] at h2
      exact renamedName_ne (lastComp srcPath) (hash c) h2.2.1
    rw [copy_file_task_rename hsrc hnat (Or.inr hh)]
    refine ⟨hne, rfl, ?_, ?_⟩
    · rw [lookupFiles_writeFile_ne (Ne.symm hne) c fs.files]
      exact hnat
    · exact lookupFiles_writeFile_self _ c fs.files

/-- Witness for C8 on `fsDemo`: equal-size different-content pair; the
rename-branch consequences hold concretely. -/
theorem skip_and_rename_preserve_existing_witness :
    lookupFiles ["src", "a.txt"] fsDemo.files = some [1, 2] ∧
    lookupFiles (naturalDest ["dst"] ["src", "a.txt"]) fsDemo.files = some [3, 4] ∧
    mkHash [1, 2] ≠ mkHash [3, 4] ∧
    (renameDest mkHash ["dst"] ["src", "a.txt"] [1, 2] ≠ naturalDest ["dst"] ["src", "a.txt"] ∧
     (copy_file_task mkHash .noFail fsDemo ["src", "a.txt"] ["dst"]).1.files =
       writeFile (renameDest mkHash ["dst"] ["src", "a.txt"] [1, 2]) [1, 2] fsDemo.files ∧
     lookupFiles (naturalDest ["dst"] ["src", "a.txt"])
       (copy_file_task mkHash .noFail fsDemo ["src", "a.txt"] ["dst"]).1.files = some [3, 4] ∧
     lookupFiles (renameDest mkHash ["dst"] ["src", "a.txt"] [1, 2])
       (copy_file_task mkHash .noFail fsDemo ["src", "a.txt"] ["dst"]).1.files = some [1, 2]) :=
  ⟨by decide, by decide, by decide,
   (skip_and_rename_preserve_existing mkHash fsDemo ["src", "a.txt"] ["dst"] [1, 2] [3, 4]
      (by decide) (by decide)).2 (by decide) (by decide)⟩

/-- C3: A `PermissionError`/`OSError`/hashing failure in one worker is caught
at the worker boundary (lines 104-105) and logged as an error record; the run
still dispatches every included file, each reaches exactly one terminal log
record in order, and the run completes with the final `Processing completed.`
record (line 124) — for every assignment of per-file faults. A fault before
any effect (`failEarly`) always yields the error record; a fault on the write
stream yields the error record unless the decision was a skip (in which case
no write happens and the worker finishes cleanly). -/
theorem per_file_errors_isolated (hash : List Nat → String) (fails : PathC → FailMode)
    (fs : FS) (src dst : PathC) (hdir : isDirFS fs src = true) :
    (main_async hash fails fs src dst).2 =
      .ok ((processFiles hash fails dst
        (preCreate { fs with dirs := mkdirs dst fs.dirs } dst (includedFiles fs src dst))
        (includedFiles fs src dst)).2 ++ [.completed]) ∧
    List.Forall₂
      (fun f ev => ev.srcOf = some f ∧
        (fails f = .failEarly → ev = .errorLogged f) ∧
        (∀ k, fails f = .failMidWrite k →
          ev = .errorLogged f ∨ ev = .skippedDuplicate f))
      (includedFiles fs src dst)
      (processFiles hash fails dst
        (preCreate { fs with dirs := mkdirs dst fs.dirs } dst (includedFiles fs src dst))
        (includedFiles fs src dst)).2 := by
  constructor
  · rw [main_async_ok hdir]
  · exact processFiles_events hash fails dst (includedFiles fs src dst) _

/-- Witness for C3: one of `fsC2`'s two files fails early; the run still
returns a completed log with one terminal record per file. -/
theorem per_file_errors_isolated_witness :
    isDirFS fsC2 ["src"] = true ∧
    ((main_async mkHash
        (fun f => if f = ["src", "a", "x.txt"] then FailMode.failEarly else FailMode.noFail)
        fsC2 ["src"] ["dst"]).2 =
      .ok ((processFiles mkHash
        (fun f => if f = ["src", "a", "x.txt"] then FailMode.failEarly else FailMode.noFail)
        ["dst"]
        (preCreate { fsC2 with dirs := mkdirs ["dst"] fsC2.dirs } ["dst"]
          (includedFiles fsC2 ["src"] ["dst"]))
        (includedFiles fsC2 ["src"] ["dst"])).2 ++ [.completed]) ∧
    List.Forall₂
      (fun f ev => ev.srcOf = some f ∧
        ((if f = ["src", "a", "x.txt"] then FailMode.failEarly else FailMode.noFail) = .failEarly →
          ev = .errorLogged f) ∧
        (∀ k, (if f = ["src", "a", "x.txt"] then FailMode.failEarly else FailMode.noFail) = .failMidWrite k →
          ev = .errorLogged f ∨ ev = .skippedDuplicate f))
      (includedFiles fsC2 ["src"] ["dst"])
      (processFiles mkHash
        (fun f => if f = ["src", "a", "x.txt"] then FailMode.failEarly else FailMode.noFail)
        ["dst"]
        (preCreate { fsC2 with dirs := mkdirs ["dst"] fsC2.dirs } ["dst"]
          (includedFiles fsC2 ["src"] ["dst"]))
        (includedFiles fsC2 ["src"] ["dst"])).2) :=
  ⟨by decide,
   per_file_errors_isolated mkHash
     (fun f => if f = ["src", "a", "x.txt"] then FailMode.failEarly else FailMode.noFail)
     fsC2 ["src"] ["dst"] (by decide)⟩

/-- C2 counterexample: starting from `fsC2` (two sources both named `x.txt`
with different one-byte contents), run the pipeline once, then run it again on
the resulting state. In the second run the conflicting file
`src/b/x.txt` is dispatched and its decision is a rename-copy (it overwrites
the already-present suffixed copy with identical bytes), **not**
`SkipDuplicate`; the file list is nevertheless unchanged. This refutes the
claim that every dispatched file's decision in the second run is
`SkipDuplicate`. -/
theorem second_run_not_all_skip :
    ["src", "b", "x.txt"] ∈
      includedFiles (main_async mkHash noFails fsC2 ["src"] ["dst"]).1 ["src"] ["dst"] ∧
    LogEvent.renamedCopy ["src", "b", "x.txt"] ["dst", "txt", "x_2.txt"] ∈
      okLogs (main_async mkHash noFails
        (main_async mkHash noFails fsC2 ["src"] ["dst"]).1 ["src"] ["dst"]).2 ∧
    (main_async mkHash noFails
        (main_async mkHash noFails fsC2 ["src"] ["dst"]).1 ["src"] ["dst"]).1.files =
      (main_async mkHash noFails fsC2 ["src"] ["dst"]).1.files := by
  refine ⟨by decide, by decide, by decide⟩

/-- C2 (amended): re-running the pipeline against a destination state that is
*stable* for every dispatched file — its natural target holds equal-size,
equal-hash content, or differs while the deterministic suffixed target already
holds the file's content, which is the state a first run leaves behind absent
adversarially pre-named collisions — produces no new files and changes no
bytes (the file list is exactly unchanged), the run completes, and every
dispatched file's record is either `SkipDuplicate` or a repeat `RenameCopy`
onto the same suffixed path (an overwrite with identical bytes) — not
necessarily `SkipDuplicate` for all. -/
theorem second_run_stable_no_new_files (hash : List Nat → String) (fs : FS)
    (src dst : PathC) (hdir : isDirFS fs src = true)
    (hstable : ∀ f ∈ includedFiles fs src dst, stableFor hash fs dst f = true) :
    (main_async hash noFails fs src dst).1.files = fs.files ∧
    (main_async hash noFails fs src dst).2 =
      .ok ((processFiles hash noFails dst
        (preCreate { fs with dirs := mkdirs dst fs.dirs } dst (includedFiles fs src dst))
        (includedFiles fs src dst)).2 ++ [.completed]) ∧
    List.Forall₂ (fun f ev => ev = .skippedDuplicate f ∨ ∃ d, ev = .renamedCopy f d)
      (includedFiles fs src dst)
      (processFiles hash noFails dst
        (preCreate { fs with dirs := mkdirs dst fs.dirs } dst (includedFiles fs src dst))
        (includedFiles fs src dst)).2 := by
  have hstable2 : ∀ f ∈ includedFiles fs src dst,
      stableFor hash
        (preCreate { fs with dirs := mkdirs dst fs.dirs } dst (includedFiles fs src dst))
        dst f = true := by
    intro f hf
    rw [@stableFor_files_irrel hash fs
      (preCreate { fs with dirs := mkdirs dst fs.dirs } dst (includedFiles fs src dst))
      dst f rfl]
    exact hstable f hf
  obtain ⟨h1, h2⟩ := processFiles_stable hash dst (includedFiles fs src dst) _ hstable2
  refine ⟨?_, ?_, h2⟩
  · rw [main_async_ok hdir]
    exact h1
  · rw [main_async_ok hdir]

/-- Witness for C2 (amended): the destination state left by the first run on
`fsC2` is stable for both files; the second run leaves the file list
unchanged. -/
theorem second_run_stable_no_new_files_witness :
    isDirFS (main_async mkHash noFails fsC2 ["src"] ["dst"]).1 ["src"] = true ∧
    (∀ f ∈ includedFiles (main_async mkHash noFails fsC2 ["src"] ["dst"]).1 ["src"] ["dst"],
       stableFor mkHash (main_async mkHash noFails fsC2 ["src"] ["dst"]).1 ["dst"] f = true) ∧
    (main_async mkHash noFails (main_async mkHash noFails fsC2 ["src"] ["dst"]).1
        ["src"] ["dst"]).1.files =
      (main_async mkHash noFails fsC2 ["src"] ["dst"]).1.files :=
  ⟨by decide, by decide,
   (second_run_stable_no_new_files mkHash (main_async mkHash noFails fsC2 ["src"] ["dst"]).1
      ["src"] ["dst"] (by decide) (by decide)).1⟩
